import Mathlib

/-!
Verification development for the signal-viewer waveform pipeline
(`Frontend/app/src/pages/Medical.jsx`).

The JavaScript source is shallowly embedded: strings become `List Char`,
JS numbers become `ℚ` for the decoders and the XOR/polar transforms
(whose claimed properties are exact arithmetic facts), and `ℝ` for the
trajectory statistics (which use a square root).  JS `x || d` on numbers
(falsy on `0` and `NaN`) is modelled by `numOr`/`ratOr`; a failed
`parseInt`/`parseFloat` (`NaN`) is modelled by `Option`.
-/

namespace SignalViewer

/-- Characters treated as whitespace by JS `trim` / `\s`. -/
def isWs (c : Char) : Bool :=
  c = ' ' || c = '\t' || c = '\n' || c = '\r' || c = Char.ofNat 11 || c = Char.ofNat 12

/-- JS `String.prototype.trim`: drop leading and trailing whitespace. -/
def jsTrim (s : List Char) : List Char :=
  ((s.dropWhile isWs).reverse.dropWhile isWs).reverse

/-- Split a character list at every occurrence of the character `c`
(JS split on a newline character: always returns at least one piece). -/
def splitOnChar (c : Char) : List Char → List (List Char)
  | [] => [[]]
  | x :: xs =>
    match splitOnChar c xs with
    | [] => [[]]
    | g :: gs => if x = c then [] :: g :: gs else (x :: g) :: gs

/-- Drop a single trailing carriage return; composed with `splitOnChar '\n'`
this models JS `split(/\r?\n/)`. -/
def stripCr (s : List Char) : List Char :=
  if s.getLast? = some '\r' then s.dropLast else s

/-- Lines of a text as produced by `text.split(/\r?\n/)`. -/
def splitLines (s : List Char) : List (List Char) :=
  (splitOnChar '\n' s).map stripCr

/-- Auxiliary state machine for JS `split` on a delimiter-run regex:
`prevD` records whether the previous character was part of a delimiter run. -/
def splitDelimAux (isD : Char → Bool) : List Char → Bool → List Char → List (List Char)
  | [], _, acc => [acc.reverse]
  | c :: cs, prevD, acc =>
    if isD c then
      if prevD then splitDelimAux isD cs true acc
      else acc.reverse :: splitDelimAux isD cs true []
    else splitDelimAux isD cs false (c :: acc)

/-- JS `split(/D+/)` for a delimiter class `isD`: the string is cut at each
maximal run of delimiter characters (leading/trailing runs produce empty
pieces, and the empty string yields `[""]`, exactly as in JS). -/
def splitDelim (isD : Char → Bool) (s : List Char) : List (List Char) :=
  splitDelimAux isD s false []

/-- Numeric value of a digit run. -/
def natOfDigits (ds : List Char) : ℕ :=
  ds.foldl (fun a c => a * 10 + (c.toNat - 48)) 0

/-- Leading decimal-digit run of a string, `none` when there is none
(the `NaN` case of JS `parseInt`). -/
def leadingNat (s : List Char) : Option ℕ :=
  let ds := s.takeWhile (·.isDigit)
  if ds.isEmpty then none else some (natOfDigits ds)

/-- JS `parseInt(s)` (decimal): skip leading whitespace, optional sign,
then the leading digit run; `none` models `NaN`. -/
def parseIntJs (s : List Char) : Option ℤ :=
  match s.dropWhile isWs with
  | '-' :: rest => (leadingNat rest).map (fun n => -(n : ℤ))
  | '+' :: rest => (leadingNat rest).map (fun n => (n : ℤ))
  | t => (leadingNat t).map (fun n => (n : ℤ))

/-- Unsigned part of JS `parseFloat`: leading `digits[.digits]` (at least one
digit overall); `none` models `NaN`. -/
def parseFloatCore (s : List Char) : Option ℚ :=
  let ip := s.takeWhile (·.isDigit)
  match s.dropWhile (·.isDigit) with
  | '.' :: frac =>
    let fp := frac.takeWhile (·.isDigit)
    if ip.isEmpty && fp.isEmpty then none
    else some ((natOfDigits ip : ℚ) + (natOfDigits fp : ℚ) / (10 : ℚ) ^ fp.length)
  | _ => if ip.isEmpty then none else some (natOfDigits ip : ℚ)

/-- JS `parseFloat(s)`: skip leading whitespace, optional sign, then the
leading decimal literal; `none` models `NaN`. -/
def parseFloatJs (s : List Char) : Option ℚ :=
  match s.dropWhile isWs with
  | '-' :: rest => (parseFloatCore rest).map (fun q => -q)
  | '+' :: rest => parseFloatCore rest
  | t => parseFloatCore t

/-- JS `x || d` for an integer-valued expression: `NaN` (here `none`) and `0`
are falsy and fall back to the default. -/
def numOr (x : Option ℤ) (d : ℤ) : ℤ :=
  match x with
  | none => d
  | some v => if v = 0 then d else v

/-- JS `x || d` for a rational-valued expression. -/
def ratOr (x : Option ℚ) (d : ℚ) : ℚ :=
  match x with
  | none => d
  | some v => if v = 0 then d else v

/-- JS `s || d` for an optional string: `undefined` and the empty string are
falsy and fall back to the default. -/
def strOr (x : Option (List Char)) (d : List Char) : List Char :=
  match x with
  | none => d
  | some s => if s.isEmpty then d else s

/-- Character list of a string literal (used for concrete inputs). -/
def strL (s : String) : List Char := s.data

/-! ## Header decoder (`parseHea`) -/

/-- Keep a line when its trimmed form is non-empty and does not start with
`#` (the filter in `parseHea` keeps lines whose trim is truthy and does not
start with `#`). -/
def heaLineKeep (l : List Char) : Bool :=
  !(jsTrim l).isEmpty && (jsTrim l).head? != some '#'

/-- The non-empty, non-comment lines of a header text:
`text.trim().split(/\r?\n/).filter(...)`. -/
def heaFilteredLines (text : List Char) : List (List Char) :=
  (splitLines (jsTrim text)).filter heaLineKeep

/-- JS replace of the regex `\(.*?\)` by the empty string: remove the first lazily-matched
parenthesised group (the leftmost `(` that is followed by a `)`, up to the
first such `)`); unchanged when no match exists. -/
def removeParen : List Char → List Char
  | [] => []
  | c :: rest =>
    if c = '(' && rest.contains ')' then (rest.dropWhile (· ≠ ')')).drop 1
    else c :: removeParen rest

/-- Match attempt for `/\((-?\d+)\)/` immediately after an opening
parenthesis: optional minus sign, a (greedy) digit run, then `)`. -/
def parenNum (s : List Char) : Option ℤ :=
  let sgn : ℤ := if s.head? = some '-' then -1 else 1
  let t := if s.head? = some '-' then s.drop 1 else s
  let ds := t.takeWhile (·.isDigit)
  if ds.isEmpty then none
  else
    match t.dropWhile (·.isDigit) with
    | ')' :: _ => some (sgn * (natOfDigits ds : ℤ))
    | _ => none

/-- JS `s.match(/\((-?\d+)\)/)`: the captured integer of the first match. -/
def baselineMatch : List Char → Option ℤ
  | [] => none
  | c :: rest =>
    if c = '(' then
      match parenNum rest with
      | some v => some v
      | none => baselineMatch rest
    else baselineMatch rest

/-- Decoded header record (the return object of `parseHea`). -/
structure HeaMeta where
  fs : ℚ
  nSamples : ℤ
  nLeads : ℤ
  leadNames : List (List Char)
  gains : List ℚ
  baselines : List ℤ
deriving DecidableEq, Repr

/-- Number of channel-description lines the `parseHea` loop visits:
`for (i = 1; i <= nLeads && i < lines.length; i++)`. -/
def heaChanCount (nLeads : ℤ) (nLines : ℕ) : ℕ :=
  (min nLeads ((nLines : ℤ) - 1)).toNat

/-- The gain field token of a signal-spec line: `p[2]` with the string 200
as the JS falsy default. -/
def gainFieldOfLine (line : List Char) : List Char :=
  strOr ((splitDelim isWs (jsTrim line)).get? 2) (strL "200")

/-- The gain numeral of a signal-spec line:
the part of the gain field before the first slash, with the first
parenthesised group removed. -/
def gainTokenOfLine (line : List Char) : List Char :=
  removeParen ((gainFieldOfLine line).takeWhile (· ≠ '/'))

/-- Per-channel fields decoded from one signal-spec line. -/
def heaChannelOf (line : List Char) (i : ℕ) : (List Char) × ℚ × ℤ :=
  let p := splitDelim isWs (jsTrim line)
  let gain := ratOr (parseFloatJs (gainTokenOfLine line)) 200
  let baseline := (baselineMatch (gainFieldOfLine line)).getD 0
  let name := strOr p.getLast? (strL "Lead" ++ Nat.toDigits 10 i)
  (name, gain, baseline)

/-- Embedding of `parseHea` (Medical.jsx lines 79–98).  The JS function
crashes with a `TypeError` when no non-empty, non-comment line exists
(`lines[0].trim()` on `undefined`); this is the `.error` branch. -/
def parseHea (text : List Char) : Except String HeaMeta :=
  let lines := heaFilteredLines text
  match lines with
  | [] => .error "TypeError: lines[0] is undefined"
  | l0 :: _ =>
    let header := splitDelim isWs (jsTrim l0)
    let nLeads := numOr ((header.get? 1).bind parseIntJs) 1
    let fs := ratOr ((header.get? 2).bind parseFloatJs) 360
    let nSamplesHdr := numOr ((header.get? 3).bind parseIntJs) 0
    let k := heaChanCount nLeads lines.length
    let chans := (List.range k).map (fun j => heaChannelOf (lines.getD (j + 1) []) (j + 1))
    .ok { fs := fs, nSamples := nSamplesHdr, nLeads := nLeads,
          leadNames := chans.map (·.1), gains := chans.map (·.2.1),
          baselines := chans.map (·.2.2) }

/-- A signal-spec line whose gain numeral does not start with a minus sign;
this is the shape the header grammar of the spec (`NUMBER[(BASELINE)][/UNIT]`,
with an unsigned `NUMBER`) guarantees, and serves as the formalisation of
"valid header text" for the gain-positivity property. -/
def gainUnsigned (line : List Char) : Bool :=
  ((gainTokenOfLine line).dropWhile isWs).head? != some '-'

/-! ## Binary frame decoder (`parseDat`) -/

/-- Little-endian signed 16-bit read at byte offset `off`
(JS `view.getInt16(off, true)`); out-of-range bytes read as 0, but the
bounds guard of the decoder keeps this case unreachable. -/
def getInt16LE (bytes : List ℕ) (off : ℕ) : ℤ :=
  let u := bytes.getD off 0 % 256 + 256 * (bytes.getD (off + 1) 0 % 256)
  if 32768 ≤ u then (u : ℤ) - 65536 else (u : ℤ)

/-- Per-channel gain lookup with the JS fallback `gains[ch] || 200`. -/
def gainAt (meta : HeaMeta) (ch : ℕ) : ℚ :=
  ratOr (meta.gains.get? ch) 200

/-- Per-channel baseline lookup with the JS fallback `baselines[ch] || 0`. -/
def baselineAt (meta : HeaMeta) (ch : ℕ) : ℤ :=
  numOr (meta.baselines.get? ch) 0

/-- The effective sample count of `parseDat` as a signed quantity:
header `nSamples` if positive (clipped to whole frames), else derived from
the file size; `Math.floor` on a ratio of a natural by a positive integer
is integer floor division. -/
def datSampleCount (totalBytes : ℕ) (meta : HeaMeta) : ℤ :=
  let bytesPerFrame := meta.nLeads * 2
  if 0 < meta.nSamples then min meta.nSamples (Int.fdiv totalBytes bytesPerFrame)
  else Int.fdiv totalBytes bytesPerFrame

/-- One decoded sample slot of `parseDat`: the bounds guard
`off + 2 > totalBytes` leaves the `Float32Array` slot at its initial 0,
otherwise the calibrated value `(raw - (baselines[ch] || 0)) / (gains[ch] || 200)`
is stored. -/
def datSlot (bytes : List ℕ) (meta : HeaMeta) (nLeadsN s ch : ℕ) : ℚ :=
  let off := s * (nLeadsN * 2) + ch * 2
  if bytes.length < off + 2 then 0
  else ((getInt16LE bytes off : ℚ) - (baselineAt meta ch : ℚ)) / gainAt meta ch

/-- Embedding of `parseDat` (Medical.jsx lines 101–123).  Error strings model
the JS `throw`s; the `RangeError` branch models `new Float32Array(n)` with a
negative `n` (reachable only when `nLeads < 0`). -/
def parseDat (bytes : List ℕ) (meta : HeaMeta) : Except String (List (List ℚ)) :=
  if meta.nLeads * 2 = 0 then .error "nLeads is 0 — check your .hea file"
  else
    let nSamplesZ := datSampleCount bytes.length meta
    if nSamplesZ = 0 then .error "No samples decoded"
    else if 0 < meta.nLeads ∧ nSamplesZ < 0 then .error "RangeError: invalid typed array length"
    else
      let nLeadsN := meta.nLeads.toNat
      let nS := nSamplesZ.toNat
      .ok ((List.range nLeadsN).map (fun ch =>
        (List.range nS).map (fun s => datSlot bytes meta nLeadsN s ch)))

/-- The effective sample count as the claim words it, written over naturals:
`min(declaredSampleCount, floor(byteLength / (2*channelCount)))` when the
declared count is positive, else `floor(byteLength / (2*channelCount))`. -/
def effSamples (byteLength : ℕ) (meta : HeaMeta) : ℕ :=
  if 0 < meta.nSamples then min meta.nSamples.toNat (byteLength / (2 * meta.nLeads.toNat))
  else byteLength / (2 * meta.nLeads.toNat)

/-! ## Delimited-text decoder (`parseXyz`) -/

/-- Delimiter class of `split(/[\s,]+/)`. -/
def isWsOrComma (c : Char) : Bool := isWs c || c = ','

/-- JS `Number(token)` for a delimiter-free token: the empty string converts
to `0`; otherwise the whole token must be a (signed) decimal literal;
`none` models `NaN`. -/
def jsNumberTok (s : List Char) : Option ℚ :=
  if s.isEmpty then some 0
  else
    match s with
    | '-' :: rest => (jsNumCore rest).map (fun q => -q)
    | '+' :: rest => jsNumCore rest
    | t => jsNumCore t
where
  /-- Unsigned full-token numeric literal: `digits[.digits]` consuming the
  entire token, with at least one digit. -/
  jsNumCore (s : List Char) : Option ℚ :=
    let ip := s.takeWhile (·.isDigit)
    match s.dropWhile (·.isDigit) with
    | [] => if ip.isEmpty then none else some (natOfDigits ip : ℚ)
    | '.' :: frac =>
      if frac.all (·.isDigit) && !(ip.isEmpty && frac.isEmpty) then
        some ((natOfDigits ip : ℚ) + (natOfDigits frac : ℚ) / (10 : ℚ) ^ frac.length)
      else none
    | _ => none

/-- The row lists of `parseXyz`:
`text.trim().split(/\r?\n/).map(r => r.trim().split(/[\s,]+/).map(Number))`. -/
def xyzRows (text : List Char) : List (List (Option ℚ)) :=
  (splitLines (jsTrim text)).map (fun r => (splitDelim isWsOrComma (jsTrim r)).map jsNumberTok)

/-- Embedding of `parseXyz` (Medical.jsx lines 126–133): the column count is
taken from the first row, and column `i` collects, in row order, the `i`-th
field of every row that has one (the push loop guarded by `i < nLeads`). -/
def parseXyz (text : List Char) : List (List (Option ℚ)) :=
  match xyzRows text with
  | [] => []
  | r0 :: rest =>
    let nLeads := r0.length
    (List.range nLeads).map (fun i => (r0 :: rest).filterMap (fun row => row.get? i))

/-! ## Channel model assembly (`_applySignals`) -/

/-- One UI channel-display record created by `_applySignals`. -/
structure ChannelRec where
  id : ℕ
  label : List Char
deriving DecidableEq, Repr

/-- The state written by `_applySignals` (Medical.jsx lines 287–299):
channel records, selected pair, sample cap, and the stored graph data. -/
structure AppliedSignals (α : Type) where
  channels : List ChannelRec
  chA : ℕ
  chB : ℕ
  sampleCount : ℕ
  time : List ℚ
  traces : List (List α)
deriving Repr

/-- Embedding of `_applySignals`: the traces are stored in `graphData`
exactly as decoded (`setGraphData({ time, traces })`); the sample cap is
`min(max(500, floor(len*0.1)), 3000)` of the first trace. -/
def applySignals {α : Type} (keys : List (List Char)) (traces : List (List α))
    (time : List ℚ) : AppliedSignals α :=
  { channels := (keys.enum).map (fun p => { id := p.1, label := p.2 })
    chA := 0
    chB := min 1 (keys.length - 1)
    sampleCount := min (max 500 ((traces.headD []).length / 10)) 3000
    time := time
    traces := traces }

/-! ## XOR energy transform -/

/-- Embedding of `normalize` (Medical.jsx lines 63–68): min/max over the
whole array starting from `arr[0]`, range defaulting to 1 when flat
(`mx - mn || 1`), then `(v - mn) / rng`.  An empty array maps to itself. -/
def normalize (arr : List ℚ) : List ℚ :=
  match arr with
  | [] => []
  | a :: rest =>
    let mn := rest.foldl min a
    let mx := rest.foldl max a
    let rng := if mx - mn = 0 then 1 else mx - mn
    (a :: rest).map (fun v => (v - mn) / rng)

/-- Embedding of `binarize` (Medical.jsx lines 71–74): threshold the
normalized signal at 0.5. -/
def binarize (arr : List ℚ) : List ℚ :=
  (normalize arr).map (fun v => if 1/2 ≤ v then 1 else 0)

/-- JS bitwise `^` restricted to the values this code applies it to: the
0/1 outputs of `binarize` (and the 0 read for a missing index). -/
def jsXor01 (a b : ℚ) : ℚ := if a = b then 0 else 1

/-- The chunk-energy reduce of the XOR render:
`binA.reduce((acc, v, i) => acc + (v ^ binB[i]), 0)`, iterating the indices
of `binA` and reading `binB[i]` (0 when absent, as `x ^ undefined = x`). -/
def xorReduce (binA binB : List ℚ) : ℚ :=
  (List.range binA.length).foldl (fun acc i => acc + jsXor01 (binA.getD i 0) (binB.getD i 0)) 0

/-- Embedding of the per-chunk XOR energy (Medical.jsx lines 422–437): for
each of `floor(N/S)` chunks, slice both signals, binarize **each slice**,
and average the XOR over the chunk. -/
def xorEnergy (rawA rawB : List ℚ) (chunkSize : ℕ) : List ℚ :=
  let numChunks := rawA.length / chunkSize
  (List.range numChunks).map (fun c =>
    let start := c * chunkSize
    let sliceA := (rawA.drop start).take chunkSize
    let sliceB := (rawB.drop start).take chunkSize
    xorReduce (binarize sliceA) (binarize sliceB) / (chunkSize : ℚ))

/-- Modelled from the words of the spec (XOR Energy mode, steps 1–3), for
comparison with the `xorEnergy` of the source: binarize the **entire** arrays
once (global min/max) and average each chunk of the global XOR trace. -/
def xorEnergySpecGlobal (rawA rawB : List ℚ) (chunkSize : ℕ) : List ℚ :=
  let binA := binarize rawA
  let binB := binarize rawB
  (List.range (rawA.length / chunkSize)).map (fun c =>
    let start := c * chunkSize
    xorReduce ((binA.drop start).take chunkSize) ((binB.drop start).take chunkSize)
      / (chunkSize : ℚ))

/-! ## Polar projection -/

/-- The sample window length used by the polar and trajectory views:
`totalN = min(len A, len B)`; `n = allSamples ? totalN : min(sampleCount, totalN)`. -/
def windowN (lenA lenB sampleCount : ℕ) (allSamples : Bool) : ℕ :=
  if allSamples then min lenA lenB else min sampleCount (min lenA lenB)

/-- Raw polar radii over the first `n` samples:
`rRaw[i] = |A[i]| / (|B[i]| + 1e-6)` (Medical.jsx lines 357–360). -/
def rRawList (fullA fullB : List ℚ) (n : ℕ) : List ℚ :=
  List.zipWith (fun a b => |a| / (|b| + 1/1000000)) (fullA.take n) (fullB.take n)

/-- The 95th-percentile clip value of the polar render:
`sorted[Math.floor(sorted.length * 0.95)] || 1` over the ascending numeric
sort (modelled by `insertionSort`, which agrees with any stable ascending
sort of rationals); the JS `||` also turns a 0 or missing value into 1. -/
def p95Of (rRaw : List ℚ) : ℚ :=
  let sorted := rRaw.insertionSort (· ≤ ·)
  ratOr (sorted.get? (19 * sorted.length / 20)) 1

/-- The normalized polar radii: `r[i] = min(rRaw[i], p95) / p95`. -/
def polarR (fullA fullB : List ℚ) (n : ℕ) : List ℚ :=
  let rRaw := rRawList fullA fullB n
  let p95 := p95Of rRaw
  rRaw.map (fun v => min v p95 / p95)

/-- The revolution count of the polar stats: `Math.floor(n / periodicity)`
on the float quotient. -/
def polarRevolutions (n P : ℕ) : ℤ := ⌊(n : ℚ) / (P : ℚ)⌋

/-- Modelled from the words of the claim, for comparison with the `p95Of`
of the source: the sorted value at index `floor(0.95*n)`, defaulting to 1 only
when `n = 0`. -/
def p95ClaimSpec (rRaw : List ℚ) : ℚ :=
  if rRaw.length = 0 then 1
  else (rRaw.insertionSort (· ≤ ·)).getD (19 * rRaw.length / 20) 0

/-- Example header of the spec, used to instantiate claim C5. -/
def heaTextEx : List Char :=
  strL "rec 2 360 1000\nrec.dat 16 200(0)/mV 0 0 MLII\nrec.dat 16 200/mV 0 0 V5"

/-- Decoded record of the example header of the spec. -/
def heaMetaEx : HeaMeta :=
  { fs := 360, nSamples := 1000, nLeads := 2,
    leadNames := [strL "MLII", strL "V5"], gains := [200, 200], baselines := [0, 0] }

/-- Byte buffer of the three-frame example of the spec: int16 frames
`[100,-100]`, `[200,-200]`, `[300,-300]`, little-endian. -/
def datBytesEx : List ℕ := [100, 0, 156, 255, 200, 0, 56, 255, 44, 1, 212, 254]

/-- Header record of the three-frame example: two channels, gain 200,
baseline 0. -/
def datMetaEx : HeaMeta :=
  { fs := 360, nSamples := 0, nLeads := 2, leadNames := [],
    gains := [200, 200], baselines := [0, 0] }

/-! ## Trajectory (recurrence) statistics -/

noncomputable section

/-- Mean of a window (`reduce((s,v) => s+v, 0) / n`). -/
def listMean (l : List ℝ) : ℝ := l.sum / l.length

/-- Population variance of a window (the radicand of the std computation). -/
def listVar (l : List ℝ) : ℝ :=
  (l.map (fun v => (v - listMean l) ^ 2)).sum / l.length

/-- Standard deviation as computed by the trajectory stats:
`sqrt(reduce((s,v) => s+(v-mean)**2, 0) / n)`. -/
def listStd (l : List ℝ) : ℝ := Real.sqrt (listVar l)

/-- Lag-0 covariance of the trajectory stats:
`sigA.reduce((s,v,i) => s + (v-meanA)*(sigB[i]-meanB), 0) / n` over two
equal-length slices. -/
def trajCov (A B : List ℝ) : ℝ :=
  (List.zipWith (fun a b => (a - listMean A) * (b - listMean B)) A B).sum / A.length

/-- Pearson correlation at lag 0 (Medical.jsx lines 1052–1063):
`stdA*stdB > 0 ? cov / (stdA*stdB) : 0`. -/
def trajCorr (A B : List ℝ) : ℝ :=
  if 0 < listStd A * listStd B then trajCov A B / (listStd A * listStd B) else 0

end

end SignalViewer

deriving instance DecidableEq for Except

namespace SignalViewer

/-! ## Lemmas about the header decoder -/

lemma parseFloatCore_nonneg (s : List Char) (v : ℚ) (h : parseFloatCore s = some v) :
    0 ≤ v := by
  unfold parseFloatCore at h
  simp only [] at h
  split at h
  · split at h
    · exact absurd h (by simp)
    · rw [Option.some.injEq] at h
      subst h
      positivity
  · split at h
    · exact absurd h (by simp)
    · rw [Option.some.injEq] at h
      subst h
      positivity

lemma parseFloatJs_nonneg (s : List Char) (h : (s.dropWhile isWs).head? ≠ some '-')
    (v : ℚ) (hv : parseFloatJs s = some v) : 0 ≤ v := by
  unfold parseFloatJs at hv
  split at hv
  next heq =>
    exact absurd (by rw [heq]; rfl) h
  next heq =>
    exact parseFloatCore_nonneg _ _ hv
  next heq =>
    exact parseFloatCore_nonneg _ _ hv

lemma gainOfLine_pos (line : List Char) (h : gainUnsigned line = true) :
    0 < ratOr (parseFloatJs (gainTokenOfLine line)) 200 := by
  unfold ratOr
  cases hp : parseFloatJs (gainTokenOfLine line) with
  | none => norm_num
  | some v =>
    have hne : ((gainTokenOfLine line).dropWhile isWs).head? ≠ some '-' := by
      simpa [gainUnsigned] using h
    have hnn : 0 ≤ v := parseFloatJs_nonneg _ hne v hp
    by_cases hv : v = 0
    · simp [hv]
    · simpa [hv] using lt_of_le_of_ne hnn (Ne.symm hv)

/-- Claim C3 (counterexample): on the header text `x y z` the first
non-empty, non-comment line yields neither a channel count (token 1 is not
numeric) nor a sample rate (token 2 is not numeric), yet the decoder does
not fail: it succeeds with both fallback defaults, `channelCount = 1` and
`sampleRate = 360`. -/
theorem parseHea_unparsable_line_succeeds :
    ((splitDelim isWs (jsTrim (strL "x y z"))).get? 1).bind parseIntJs = none ∧
    ((splitDelim isWs (jsTrim (strL "x y z"))).get? 2).bind parseFloatJs = none ∧
    parseHea (strL "x y z") =
      .ok { fs := 360, nSamples := 0, nLeads := 1,
            leadNames := [], gains := [], baselines := [] } := by
  refine ⟨by decide, by decide, by decide⟩

/-- Claim C3 (amended): the header decoder fails exactly when the text has
no non-empty, non-comment line at all (the JS code crashes indexing
`lines[0]`); whenever a first line survives the filter — parsable or not —
decoding succeeds, each field falling back independently. -/
theorem parseHea_fails_iff_no_lines (text : List Char) :
    (parseHea text).isOk = true ↔ heaFilteredLines text ≠ [] := by
  unfold parseHea
  cases hl : heaFilteredLines text with
  | nil => simp [Except.isOk, Except.toBool]
  | cons l0 rest => simp [Except.isOk, Except.toBool]

/-- Claim C3 (witness): a text consisting solely of a comment line has no
surviving line, and decoding it indeed fails. -/
theorem parseHea_fails_iff_no_lines_witness :
    (parseHea (strL "# comment only")).isOk = false ∧
    (parseHea (strL "r 1 360")).isOk = true := by
  constructor
  · have h2 : ¬ (parseHea (strL "# comment only")).isOk = true := fun hk =>
      (parseHea_fails_iff_no_lines (strL "# comment only")).mp hk (by decide)
    simpa using h2
  · exact (parseHea_fails_iff_no_lines (strL "r 1 360")).mpr (by decide)

/-- Claim C5: for every header text accepted by the decoder, the decoded
channel list has length `min(declared channel count, available
channel-description lines)` (expressed with the clamped integer minimum,
which coincides with the natural `min` once the declared count is at least
one), and — for texts whose gain numerals are unsigned, as the header
grammar of the spec prescribes — every decoded gain is strictly positive,
missing or zero specifiers falling back to 200. -/
theorem parseHea_channels_min_and_gain_pos (text : List Char) (m : HeaMeta)
    (hok : parseHea text = .ok m)
    (hval : ∀ l ∈ heaFilteredLines text, gainUnsigned l = true) :
    m.leadNames.length = heaChanCount m.nLeads (heaFilteredLines text).length ∧
    m.gains.length = heaChanCount m.nLeads (heaFilteredLines text).length ∧
    (1 ≤ m.nLeads →
      m.gains.length = min m.nLeads.toNat ((heaFilteredLines text).length - 1)) ∧
    ∀ g ∈ m.gains, 0 < g := by
  unfold parseHea at hok
  cases hl : heaFilteredLines text with
  | nil =>
    rw [hl] at hok
    exact absurd hok (by simp)
  | cons l0 rest =>
    rw [hl] at hok
    simp only [Except.ok.injEq] at hok
    subst hok
    simp only []
    refine ⟨by simp, by simp, ?_, ?_⟩
    · intro h1
      simp only [List.length_map, List.length_range, heaChanCount, List.length_cons]
      omega
    · intro g hg
      simp only [List.mem_map, List.mem_range] at hg
      obtain ⟨j, hj, rfl⟩ := hg
      obtain ⟨j, hjk, rfl⟩ := hj
      have hline : (l0 :: rest).getD (j + 1) [] ∈ heaFilteredLines text := by
        rw [hl]
        have hjlen : j + 1 < (l0 :: rest).length := by
          simp only [heaChanCount, List.length_cons] at hjk ⊢
          omega
        rw [List.getD_eq_getElem _ _ hjlen]
        exact List.getElem_mem _
      exact gainOfLine_pos _ (hval _ hline)

/-- Claim C5 (witness): the two-channel example header of the spec decodes
to two channels (`min(2, 2) = 2`) with strictly positive gains. -/
theorem parseHea_channels_min_and_gain_pos_witness :
    heaMetaEx.leadNames.length = heaChanCount heaMetaEx.nLeads (heaFilteredLines heaTextEx).length ∧
    heaMetaEx.gains.length = heaChanCount heaMetaEx.nLeads (heaFilteredLines heaTextEx).length ∧
    (1 ≤ heaMetaEx.nLeads →
      heaMetaEx.gains.length = min heaMetaEx.nLeads.toNat ((heaFilteredLines heaTextEx).length - 1)) ∧
    ∀ g ∈ heaMetaEx.gains, 0 < g :=
  parseHea_channels_min_and_gain_pos heaTextEx heaMetaEx (by decide) (by decide)

/-! ## Lemmas about the binary frame decoder -/

lemma datSampleCount_eq (tb : ℕ) (meta : HeaMeta) (hL : 1 ≤ meta.nLeads) :
    datSampleCount tb meta = (effSamples tb meta : ℤ) := by
  have hfd : Int.fdiv (tb : ℤ) (meta.nLeads * 2) = ((tb / (2 * meta.nLeads.toNat) : ℕ) : ℤ) := by
    rw [show meta.nLeads * 2 = ((meta.nLeads.toNat * 2 : ℕ) : ℤ) by omega]
    rw [← Int.ofNat_fdiv, Nat.mul_comm]
  unfold datSampleCount effSamples
  simp only []
  rw [hfd]
  by_cases h : 0 < meta.nSamples
  · simp only [h, if_pos]
    omega
  · simp only [h, if_neg, if_false]

lemma effSamples_le_div (tb : ℕ) (meta : HeaMeta) :
    effSamples tb meta ≤ tb / (2 * meta.nLeads.toNat) := by
  unfold effSamples
  split
  · exact min_le_right _ _
  · exact le_rfl

lemma datSlot_in_bounds (bytes : List ℕ) (meta : HeaMeta) {s ch : ℕ}
    (hs : s < effSamples bytes.length meta) (hch : ch < meta.nLeads.toNat) :
    s * (meta.nLeads.toNat * 2) + ch * 2 + 2 ≤ bytes.length := by
  have h1 : effSamples bytes.length meta * (2 * meta.nLeads.toNat) ≤ bytes.length := by
    calc effSamples bytes.length meta * (2 * meta.nLeads.toNat)
        ≤ bytes.length / (2 * meta.nLeads.toNat) * (2 * meta.nLeads.toNat) :=
          Nat.mul_le_mul_right _ (effSamples_le_div _ _)
      _ ≤ bytes.length := Nat.div_mul_le_self _ _
  have h2 : (s + 1) * (2 * meta.nLeads.toNat) ≤ effSamples bytes.length meta * (2 * meta.nLeads.toNat) :=
    Nat.mul_le_mul_right _ hs
  have h3 : s * (2 * meta.nLeads.toNat) + 2 * (ch + 1) ≤ (s + 1) * (2 * meta.nLeads.toNat) := by
    have := Nat.mul_le_mul_left 2 hch
    nlinarith
  nlinarith

lemma parseDat_ok (bytes : List ℕ) (meta : HeaMeta)
    (hL : 1 ≤ meta.nLeads) (hE : 1 ≤ effSamples bytes.length meta) :
    parseDat bytes meta = .ok ((List.range meta.nLeads.toNat).map (fun ch =>
      (List.range (effSamples bytes.length meta)).map (fun s =>
        datSlot bytes meta meta.nLeads.toNat s ch))) := by
  have hsc : datSampleCount bytes.length meta = (effSamples bytes.length meta : ℤ) :=
    datSampleCount_eq _ _ hL
  have h2 : ¬ meta.nLeads * 2 = 0 := by omega
  unfold parseDat
  rw [if_neg h2, hsc]
  rw [if_neg (by exact_mod_cast by omega)]
  rw [if_neg (by push_neg; intro _; exact_mod_cast Nat.zero_le _)]
  rw [Int.toNat_natCast]

/-- Claim C4: whenever the header declares at least one channel and at least
one whole frame is available, the binary frame decoder succeeds and decodes
exactly `min(declaredSampleCount, floor(byteLength / (2*channelCount)))`
samples per channel when the declared count is positive and
`floor(byteLength / (2*channelCount))` otherwise (`effSamples`), each sample
read as a 2-byte little-endian signed integer from its interleaved frame
slot and calibrated as `(rawInt16 - baseline[ch]) / gain[ch]` (with the JS
fallbacks for a missing entry). -/
theorem parseDat_count_and_calibration (bytes : List ℕ) (meta : HeaMeta)
    (hL : 1 ≤ meta.nLeads) (hE : 1 ≤ effSamples bytes.length meta) :
    parseDat bytes meta = .ok ((List.range meta.nLeads.toNat).map (fun ch =>
      (List.range (effSamples bytes.length meta)).map (fun s =>
        ((getInt16LE bytes (s * (meta.nLeads.toNat * 2) + ch * 2) : ℚ)
          - (baselineAt meta ch : ℚ)) / gainAt meta ch))) := by
  rw [parseDat_ok bytes meta hL hE]
  refine congrArg Except.ok (List.map_congr_left fun ch hch => ?_)
  rw [List.mem_range] at hch
  refine List.map_congr_left fun s hs => ?_
  rw [List.mem_range] at hs
  have hb := datSlot_in_bounds bytes meta hs hch
  unfold datSlot
  rw [if_neg (by omega)]

/-- Claim C4 (witness): the example decodes to `channel0 = [0.5, 1.0, 1.5]`
and `channel1 = [-0.5, -1.0, -1.5]`. -/
theorem parseDat_count_and_calibration_witness :
    parseDat datBytesEx datMetaEx = .ok [[1/2, 1, 3/2], [-1/2, -1, -3/2]] :=
  (parseDat_count_and_calibration datBytesEx datMetaEx (by decide) (by decide)).trans
    (by with_unfolding_all decide)

/-- Claim C10: with at least one channel and at least one whole frame, the
decoder returns exactly `channelCount` arrays of identical length equal to
the effective sample count, and every per-slot read stays within the
buffer, so the bounds guard `off + 2 > byteLength` inside the loop is
unreachable (no truncated tail, no zero-padded sample). -/
theorem parseDat_lengths_and_guard_unreachable (bytes : List ℕ) (meta : HeaMeta)
    (hL : 1 ≤ meta.nLeads) (hE : 1 ≤ effSamples bytes.length meta) :
    ∃ ts, parseDat bytes meta = .ok ts ∧ ts.length = meta.nLeads.toNat ∧
      (∀ t ∈ ts, t.length = effSamples bytes.length meta) ∧
      ∀ s < effSamples bytes.length meta, ∀ ch < meta.nLeads.toNat,
        s * (meta.nLeads.toNat * 2) + ch * 2 + 2 ≤ bytes.length := by
  refine ⟨_, parseDat_ok bytes meta hL hE, by simp, ?_, ?_⟩
  · intro t ht
    rw [List.mem_map] at ht
    obtain ⟨ch, _, rfl⟩ := ht
    simp
  · intro s hs ch hch
    exact datSlot_in_bounds bytes meta hs hch

/-- Claim C10 (witness): instantiation at the three-frame example buffer. -/
theorem parseDat_lengths_and_guard_unreachable_witness :
    ∃ ts, parseDat datBytesEx datMetaEx = .ok ts ∧ ts.length = datMetaEx.nLeads.toNat ∧
      (∀ t ∈ ts, t.length = effSamples datBytesEx.length datMetaEx) ∧
      ∀ s < effSamples datBytesEx.length datMetaEx, ∀ ch < datMetaEx.nLeads.toNat,
        s * (datMetaEx.nLeads.toNat * 2) + ch * 2 + 2 ≤ datBytesEx.length :=
  parseDat_lengths_and_guard_unreachable datBytesEx datMetaEx (by decide) (by decide)

/-! ## Lemmas about the delimited-text decoder -/

lemma splitOnChar_ne_nil (c : Char) (s : List Char) : splitOnChar c s ≠ [] := by
  cases s with
  | nil => simp [splitOnChar]
  | cons x xs =>
    unfold splitOnChar
    cases splitOnChar c xs with
    | nil => simp
    | cons g gs =>
      by_cases h : x = c <;> simp [h]

lemma xyzRows_ne_nil (text : List Char) : xyzRows text ≠ [] := by
  unfold xyzRows splitLines
  intro h
  rw [List.map_eq_nil_iff, List.map_eq_nil_iff] at h
  exact splitOnChar_ne_nil _ _ h

lemma length_filterMap_get? {α : Type} (i : ℕ) (l : List (List α)) :
    (l.filterMap (fun row => row.get? i)).length
      = (l.filter (fun r => decide (i < r.length))).length := by
  induction l with
  | nil => rfl
  | cons r t ih =>
    simp only [List.get?_eq_getElem?] at ih
    cases h : r.get? i with
    | none =>
      have hlen : r.length ≤ i := List.get?_eq_none.mp h
      rw [List.get?_eq_getElem?] at h
      simp [List.filterMap_cons, List.filter_cons, h, Nat.not_lt.mpr hlen, ih]
    | some a =>
      have hlen : i < r.length := by
        by_contra hc
        rw [List.get?_eq_none.mpr (Nat.not_lt.mp hc)] at h
        exact absurd h (by simp)
      rw [List.get?_eq_getElem?] at h
      simp [List.filterMap_cons, List.filter_cons, h, hlen, ih]

/-- Claim C6 (counterexample): in the text `1 2`, empty line, `3 4`, the
interior empty row is not dropped; it converts to the single value
`Number(empty string) = 0` and contributes that 0 to the first column, so
column 0 is `[1, 0, 3]` instead of the `[1, 3]` that dropping empty rows
would produce. -/
theorem parseXyz_empty_row_not_dropped :
    parseXyz (strL "1 2\n\n3 4") = [[some 1, some 0, some 3], [some 2, some 4]] ∧
    [[some (1 : ℚ), some 0, some 3], [some 2, some 4]]
      ≠ [[some (1 : ℚ), some 3], [some 2, some 4]] :=
  ⟨by decide, by decide⟩

/-- Claim C6 (amended): the delimited-text decoder splits rows on newline
(after trimming the whole text) and fields on whitespace-or-comma runs; the
column count is the field count of the first row; column `i` collects, in
row order, the `i`-th field of every row that has one — so fields beyond
the column count are ignored, short rows contribute fewer values, and an
interior empty row is kept (contributing `Number(empty string) = 0` to
column 0) rather than dropped. -/
theorem parseXyz_column_structure (text : List Char) :
    (parseXyz text).length = ((xyzRows text).headD []).length ∧
    ∀ i, i < ((xyzRows text).headD []).length →
      (parseXyz text).getD i [] = (xyzRows text).filterMap (fun row => row.get? i) ∧
      ((parseXyz text).getD i []).length
        = ((xyzRows text).filter (fun r => decide (i < r.length))).length := by
  cases hr : xyzRows text with
  | nil => exact absurd hr (xyzRows_ne_nil text)
  | cons r0 rest =>
    unfold parseXyz
    rw [hr]
    simp only [List.headD_cons]
    refine ⟨by simp, ?_⟩
    intro i hi
    have hgd : ((List.range r0.length).map
        (fun i => (r0 :: rest).filterMap (fun row => row.get? i))).getD i []
        = (r0 :: rest).filterMap (fun row => row.get? i) := by
      rw [List.getD_eq_getElem _ _ (by simpa using hi)]
      simp
    rw [hgd]
    exact ⟨rfl, length_filterMap_get? i (r0 :: rest)⟩

/-- Claim C6 (witness): instantiation of the column-structure
characterization at the three-row example text and column 0. -/
theorem parseXyz_column_structure_witness :
    (parseXyz (strL "1 2\n\n3 4")).length = ((xyzRows (strL "1 2\n\n3 4")).headD []).length ∧
    ((parseXyz (strL "1 2\n\n3 4")).getD 0 []
        = (xyzRows (strL "1 2\n\n3 4")).filterMap (fun row => row.get? 0) ∧
      ((parseXyz (strL "1 2\n\n3 4")).getD 0 []).length
        = ((xyzRows (strL "1 2\n\n3 4")).filter (fun r => decide (0 < r.length))).length) :=
  ⟨(parseXyz_column_structure (strL "1 2\n\n3 4")).1,
   (parseXyz_column_structure (strL "1 2\n\n3 4")).2 0 (by decide)⟩

/-- Claim C2 (counterexample): decoding the ragged text `1 2` newline `3`
yields columns of lengths 2 and 1, and the channel-model assembly stores
them with those unequal lengths — no right-truncation to the shortest
channel happens. -/
theorem applySignals_ragged_not_truncated :
    ((applySignals [strL "XYZ_1", strL "XYZ_2"] (parseXyz (strL "1 2\n3"))
        ((List.range 2).map (fun i => (i : ℚ)))).traces.map List.length) = [2, 1] ∧
    (2 : ℕ) ≠ 1 :=
  ⟨by decide, by decide⟩

/-- Claim C2 (amended): `_applySignals` stores the decoded channel arrays
exactly as given — no truncation of any kind is applied — so the
equal-length invariant is not established by the pipeline; consumers clamp
to the pairwise minimum length at use time instead. -/
theorem applySignals_stores_traces_unchanged {α : Type} (keys : List (List Char))
    (traces : List (List α)) (time : List ℚ) :
    (applySignals keys traces time).traces = traces ∧
    (applySignals keys traces time).time = time ∧
    (applySignals keys traces time).channels.length = keys.length :=
  ⟨rfl, rfl, by simp [applySignals]⟩

/-! ## Lemmas about binarization and XOR energy -/

lemma foldl_min_le_init (a : ℚ) (l : List ℚ) : l.foldl min a ≤ a := by
  induction l generalizing a with
  | nil => exact le_refl a
  | cons b t ih => exact le_trans (ih (min a b)) (min_le_left a b)

lemma foldl_min_le_mem (a : ℚ) (l : List ℚ) (x : ℚ) (hx : x ∈ l) : l.foldl min a ≤ x := by
  induction l generalizing a with
  | nil => cases hx
  | cons b t ih =>
    rcases List.mem_cons.mp hx with rfl | hxt
    · rw [List.foldl_cons]
      exact le_trans (foldl_min_le_init _ _) (min_le_right a x)
    · exact ih (min a b) hxt

lemma foldl_min_mem (a : ℚ) (l : List ℚ) : l.foldl min a = a ∨ l.foldl min a ∈ l := by
  induction l generalizing a with
  | nil => exact Or.inl rfl
  | cons b t ih =>
    rcases ih (min a b) with h | h
    · rcases min_choice a b with hab | hab
      · exact Or.inl (by rw [List.foldl_cons, h, hab])
      · exact Or.inr (by rw [List.foldl_cons, h, hab]; exact List.mem_cons_self b t)
    · exact Or.inr (List.mem_cons_of_mem b h)

lemma le_foldl_max_init (a : ℚ) (l : List ℚ) : a ≤ l.foldl max a := by
  induction l generalizing a with
  | nil => exact le_refl a
  | cons b t ih => exact le_trans (le_max_left a b) (ih (max a b))

lemma le_foldl_max_mem (a : ℚ) (l : List ℚ) (x : ℚ) (hx : x ∈ l) : x ≤ l.foldl max a := by
  induction l generalizing a with
  | nil => cases hx
  | cons b t ih =>
    rcases List.mem_cons.mp hx with rfl | hxt
    · rw [List.foldl_cons]
      exact le_trans (le_max_right a x) (le_foldl_max_init _ _)
    · exact ih (max a b) hxt

lemma foldl_max_mem (a : ℚ) (l : List ℚ) : l.foldl max a = a ∨ l.foldl max a ∈ l := by
  induction l generalizing a with
  | nil => exact Or.inl rfl
  | cons b t ih =>
    rcases ih (max a b) with h | h
    · rcases max_choice a b with hab | hab
      · exact Or.inl (by rw [List.foldl_cons, h, hab])
      · exact Or.inr (by rw [List.foldl_cons, h, hab]; exact List.mem_cons_self b t)
    · exact Or.inr (List.mem_cons_of_mem b h)

lemma binarize_cons_eq (a : ℚ) (rest : List ℚ) :
    binarize (a :: rest) = (a :: rest).map (fun v =>
      if 1/2 ≤ (v - rest.foldl min a) /
          (if rest.foldl max a - rest.foldl min a = 0 then 1
           else rest.foldl max a - rest.foldl min a) then 1 else 0) := by
  unfold binarize normalize
  rw [List.map_map]
  rfl

lemma binarize_mem01 (x : List ℚ) : ∀ v ∈ binarize x, v = 0 ∨ v = 1 := by
  intro v hv
  unfold binarize at hv
  rw [List.mem_map] at hv
  obtain ⟨u, _, rfl⟩ := hv
  rcases le_or_lt (1/2 : ℚ) u with h | h
  · exact Or.inr (if_pos h)
  · exact Or.inl (if_neg (not_le.mpr h))

lemma binarize_zero_mem (a : ℚ) (rest : List ℚ) : (0 : ℚ) ∈ binarize (a :: rest) := by
  rw [binarize_cons_eq]
  rw [List.mem_map]
  refine ⟨rest.foldl min a, ?_, ?_⟩
  · rcases foldl_min_mem a rest with h | h
    · rw [h]; exact List.mem_cons_self a rest
    · exact List.mem_cons_of_mem a h
  · rw [sub_self, zero_div]
    norm_num

lemma binarize_of_binary (y : List ℚ) (h01 : ∀ v ∈ y, v = 0 ∨ v = 1)
    (h0 : (0 : ℚ) ∈ y) : binarize y = y := by
  cases y with
  | nil => cases h0
  | cons b t =>
    have hmn : t.foldl min b = 0 := by
      have hm : t.foldl min b ∈ b :: t := by
        rcases foldl_min_mem b t with h | h
        · rw [h]; exact List.mem_cons_self b t
        · exact List.mem_cons_of_mem b h
      have hle : t.foldl min b ≤ 0 := by
        rcases List.mem_cons.mp h0 with h | h
        · rw [h]; exact foldl_min_le_init _ _
        · exact foldl_min_le_mem _ _ _ h
      rcases h01 _ hm with h | h
      · exact h
      · rw [h] at hle; linarith
    have hmx : t.foldl max b = 0 ∨ t.foldl max b = 1 := by
      apply h01
      rcases foldl_max_mem b t with h | h
      · rw [h]; exact List.mem_cons_self b t
      · exact List.mem_cons_of_mem b h
    have hrng : (if t.foldl max b - t.foldl min b = 0 then 1
        else t.foldl max b - t.foldl min b) = 1 := by
      rcases hmx with h | h <;> rw [h, hmn] <;> norm_num
    rw [binarize_cons_eq, hrng, hmn]
    have : ∀ v ∈ b :: t, (if 1/2 ≤ (v - 0) / 1 then (1 : ℚ) else 0) = v := by
      intro v hv
      rcases h01 v hv with h | h <;> rw [h] <;> norm_num
    rw [List.map_congr_left this]
    simp

/-- Claim C9: `binarize` is idempotent — re-binarizing an already binarized
sequence leaves it unchanged.  This holds because a non-empty binarized
sequence always contains a 0 (the minimum normalizes to 0, below the 0.5
threshold), so its min is 0, its range normalizes to 1, and thresholding
the 0/1 values reproduces them. -/
theorem binarize_idempotent (x : List ℚ) : binarize (binarize x) = binarize x := by
  cases x with
  | nil => rfl
  | cons a rest =>
    exact binarize_of_binary _ (binarize_mem01 _) (binarize_zero_mem a rest)

lemma foldl_add_eq_sum (f : ℕ → ℚ) (n : ℕ) :
    (List.range n).foldl (fun acc i => acc + f i) 0 = ((List.range n).map f).sum := by
  induction n with
  | zero => rfl
  | succ n ih =>
    rw [List.range_succ, List.foldl_append, List.map_append, List.sum_append, ih]
    simp

lemma binarize_length (l : List ℚ) : (binarize l).length = l.length := by
  unfold binarize normalize
  cases l <;> simp

lemma xorReduce_eq_zipWith_sum (xs ys : List ℚ) (h : xs.length = ys.length) :
    xorReduce xs ys = (List.zipWith jsXor01 xs ys).sum := by
  unfold xorReduce
  rw [foldl_add_eq_sum]
  congr 1
  apply List.ext_getElem
  · simp [h]
  · intro i h1 h2
    rw [List.getElem_map, List.getElem_range, List.getElem_zipWith]
    rw [List.length_map, List.length_range] at h1
    rw [List.getD_eq_getElem _ _ h1, List.getD_eq_getElem _ _ (h ▸ h1)]

lemma chunk_slice_length (A : List ℚ) (S k : ℕ) (hS : 1 ≤ S) (hk : k < A.length / S) :
    ((A.drop (k * S)).take S).length = S := by
  have hmul : (k + 1) * S ≤ (A.length / S) * S := Nat.mul_le_mul_right S hk
  have hdm : (A.length / S) * S ≤ A.length := Nat.div_mul_le_self _ _
  have hexp : (k + 1) * S = k * S + S := by ring
  simp only [List.length_take, List.length_drop]
  omega

lemma zipWith_jsXor01_mem01 (l1 l2 : List ℚ) :
    ∀ v ∈ List.zipWith jsXor01 l1 l2, v = 0 ∨ v = 1 := by
  induction l1 generalizing l2 with
  | nil => simp
  | cons a t ih =>
    cases l2 with
    | nil => simp
    | cons b t2 =>
      intro v hv
      rw [List.zipWith_cons_cons, List.mem_cons] at hv
      rcases hv with rfl | hv
      · unfold jsXor01
        by_cases h : a = b
        · exact Or.inl (if_pos h)
        · exact Or.inr (if_neg h)
      · exact ih t2 v hv

lemma sum_01_bounds (l : List ℚ) (h01 : ∀ v ∈ l, v = 0 ∨ v = 1) :
    0 ≤ l.sum ∧ l.sum ≤ (l.length : ℚ) := by
  constructor
  · refine List.sum_nonneg fun v hv => ?_
    rcases h01 v hv with rfl | rfl <;> norm_num
  · have := List.sum_le_card_nsmul l 1 (fun v hv => by
      rcases h01 v hv with rfl | rfl <;> norm_num)
    simpa [nsmul_eq_mul] using this

/-- Claim C1 (counterexample): with `A = [0,1,10,11]`, `B = [0,0,0,0]` and
chunk size 2, the code binarizes each chunk separately and produces
energies `[1/2, 1/2]`, whereas binarizing the entire arrays once with the
global min/max — as the claim states — would produce `[0, 1]`. -/
theorem xorEnergy_not_global :
    xorEnergy [0, 1, 10, 11] [0, 0, 0, 0] 2 = [1/2, 1/2] ∧
    xorEnergySpecGlobal [0, 1, 10, 11] [0, 0, 0, 0] 2 = [0, 1] ∧
    xorEnergy [0, 1, 10, 11] [0, 0, 0, 0] 2
      ≠ xorEnergySpecGlobal [0, 1, 10, 11] [0, 0, 0, 0] 2 := by
  refine ⟨by with_unfolding_all decide, by with_unfolding_all decide,
    by with_unfolding_all decide⟩

/-- Claim C1 (amended): for equal-length channel arrays and chunk size
`S ≥ 1`, the XOR energy has one value per whole chunk (`floor(N/S)`,
trailing remainder dropped) and
`energy[k] = (Σ over the k-th chunk of binA_k[i] XOR binB_k[i]) / S`,
where `binA_k`/`binB_k` binarize the k-th chunk slices **independently**
(per-chunk min/max normalization, not global); every energy lies in
`[0, 1]`. -/
theorem xorEnergy_per_chunk (A B : List ℚ) (S : ℕ) (hS : 1 ≤ S)
    (hAB : A.length = B.length) :
    (xorEnergy A B S).length = A.length / S ∧
    ∀ k, k < A.length / S →
      (xorEnergy A B S).getD k 0
        = (List.zipWith jsXor01 (binarize ((A.drop (k * S)).take S))
            (binarize ((B.drop (k * S)).take S))).sum / (S : ℚ) ∧
      0 ≤ (xorEnergy A B S).getD k 0 ∧ (xorEnergy A B S).getD k 0 ≤ 1 := by
  have hlen : (xorEnergy A B S).length = A.length / S := by
    unfold xorEnergy
    simp
  refine ⟨hlen, fun k hk => ?_⟩
  have hslice : (binarize ((A.drop (k * S)).take S)).length
      = (binarize ((B.drop (k * S)).take S)).length := by
    rw [binarize_length, binarize_length, chunk_slice_length A S k hS hk,
      chunk_slice_length B S k hS (hAB ▸ hk)]
  have hgd : (xorEnergy A B S).getD k 0
      = xorReduce (binarize ((A.drop (k * S)).take S))
          (binarize ((B.drop (k * S)).take S)) / (S : ℚ) := by
    unfold xorEnergy
    rw [List.getD_eq_getElem _ _ (by simpa using hk)]
    simp
  have hsum := xorReduce_eq_zipWith_sum _ _ hslice
  have h01 := zipWith_jsXor01_mem01 (binarize ((A.drop (k * S)).take S))
    (binarize ((B.drop (k * S)).take S))
  have hb := sum_01_bounds _ h01
  have hzlen : (List.zipWith jsXor01 (binarize ((A.drop (k * S)).take S))
      (binarize ((B.drop (k * S)).take S))).length = S := by
    rw [List.length_zipWith, binarize_length, binarize_length,
      chunk_slice_length A S k hS hk, chunk_slice_length B S k hS (hAB ▸ hk)]
    simp
  have hSpos : (0 : ℚ) < (S : ℚ) := by exact_mod_cast hS
  refine ⟨by rw [hgd, hsum], ?_, ?_⟩
  · rw [hgd, hsum]
    exact div_nonneg hb.1 (le_of_lt hSpos)
  · rw [hgd, hsum]
    rw [div_le_one hSpos]
    calc (List.zipWith jsXor01 _ _).sum ≤ _ := hb.2
      _ = (S : ℚ) := by rw [hzlen]

/-- Claim C1 (witness): instantiation of the per-chunk energy
characterization at `A = [0,1,10,11]`, `B = [0,0,0,0]`, `S = 2`. -/
theorem xorEnergy_per_chunk_witness :
    (xorEnergy [0, 1, 10, 11] [0, 0, 0, 0] 2).length = ([0, 1, 10, 11] : List ℚ).length / 2 ∧
    ∀ k, k < ([0, 1, 10, 11] : List ℚ).length / 2 →
      (xorEnergy [0, 1, 10, 11] [0, 0, 0, 0] 2).getD k 0
        = (List.zipWith jsXor01 (binarize ((([0, 1, 10, 11] : List ℚ).drop (k * 2)).take 2))
            (binarize ((([0, 0, 0, 0] : List ℚ).drop (k * 2)).take 2))).sum / (2 : ℚ) ∧
      0 ≤ (xorEnergy [0, 1, 10, 11] [0, 0, 0, 0] 2).getD k 0 ∧
      (xorEnergy [0, 1, 10, 11] [0, 0, 0, 0] 2).getD k 0 ≤ 1 :=
  xorEnergy_per_chunk [0, 1, 10, 11] [0, 0, 0, 0] 2 (by decide) (by decide)

/-! ## Lemmas about the polar projection -/

lemma mem_zipWith_imp {α β γ : Type} (f : α → β → γ) (p : γ → Prop)
    (h : ∀ a b, p (f a b)) :
    ∀ (l1 : List α) (l2 : List β), ∀ v ∈ List.zipWith f l1 l2, p v := by
  intro l1
  induction l1 with
  | nil => simp
  | cons a t ih =>
    intro l2 v hv
    cases l2 with
    | nil => cases hv
    | cons b t2 =>
      rw [List.zipWith_cons_cons, List.mem_cons] at hv
      rcases hv with rfl | hv
      · exact h a b
      · exact ih t2 v hv

lemma rRawList_nonneg (fullA fullB : List ℚ) (n : ℕ) :
    ∀ v ∈ rRawList fullA fullB n, 0 ≤ v := by
  refine mem_zipWith_imp _ _ (fun a b => ?_) _ _
  have hden : (0 : ℚ) < |b| + 1/1000000 := by positivity
  exact div_nonneg (abs_nonneg a) (le_of_lt hden)

lemma ratOr_pos_of_nonneg (x : Option ℚ) (d : ℚ) (hd : 0 < d)
    (hx : ∀ v, x = some v → 0 ≤ v) : 0 < ratOr x d := by
  cases x with
  | none => exact hd
  | some v =>
    unfold ratOr
    by_cases hv : v = 0
    · simpa [hv] using hd
    · simpa [hv] using lt_of_le_of_ne (hx v rfl) (Ne.symm hv)

lemma p95Of_pos (rRaw : List ℚ) (h : ∀ v ∈ rRaw, 0 ≤ v) : 0 < p95Of rRaw := by
  unfold p95Of
  refine ratOr_pos_of_nonneg _ _ (by norm_num) ?_
  intro v hv
  exact h v ((List.perm_insertionSort (· ≤ ·) rRaw).mem_iff.mp (List.get?_mem hv))

/-- Claim C8 (counterexample): with 40 samples whose raw ratio list is 39
zeros followed by one large value, the ascending-sorted value at index
`floor(0.95*40) = 38` is 0, yet the code clips with `p95 = 1` (the JS `||`
also replaces a zero percentile value, not only the missing one at
`n = 0`), and the last normalized radius is 1 — while the formula of the
claim, `min(r_raw, p95)/p95` with its `p95 = 0`, yields 0. -/
theorem polar_p95_claim_formula_fails :
    p95ClaimSpec (rRawList (List.replicate 39 (0 : ℚ) ++ [1]) (List.replicate 40 (0 : ℚ)) 40) = 0 ∧
    p95Of (rRawList (List.replicate 39 (0 : ℚ) ++ [1]) (List.replicate 40 (0 : ℚ)) 40) = 1 ∧
    (polarR (List.replicate 39 (0 : ℚ) ++ [1]) (List.replicate 40 (0 : ℚ)) 40).getD 39 0 = 1 ∧
    min ((rRawList (List.replicate 39 (0 : ℚ) ++ [1]) (List.replicate 40 (0 : ℚ)) 40).getD 39 0)
        (p95ClaimSpec (rRawList (List.replicate 39 (0 : ℚ) ++ [1]) (List.replicate 40 (0 : ℚ)) 40))
      / p95ClaimSpec (rRawList (List.replicate 39 (0 : ℚ) ++ [1]) (List.replicate 40 (0 : ℚ)) 40) = 0 ∧
    (1 : ℚ) ≠ 0 := by
  refine ⟨by with_unfolding_all decide, by with_unfolding_all decide,
    by with_unfolding_all decide, by with_unfolding_all decide, by norm_num⟩

/-- Claim C8 (amended): every normalized polar radius lies in `[0, 1]`,
where the clip value `p95` is the ascending-sorted raw-ratio value at index
`floor(0.95*n)`, defaulting to 1 when `n = 0` **or when that sorted value
is 0** (the JS `||` fallback); the reported revolution count equals
`floor(n / P)`. -/
theorem polar_r_bounds_and_revolutions (fullA fullB : List ℚ) (sc : ℕ) (asamp : Bool)
    (P : ℕ) (hP : 1 ≤ P) :
    (∀ r ∈ polarR fullA fullB (windowN fullA.length fullB.length sc asamp),
      0 ≤ r ∧ r ≤ 1) ∧
    polarRevolutions (windowN fullA.length fullB.length sc asamp) P
      = ((windowN fullA.length fullB.length sc asamp / P : ℕ) : ℤ) := by
  constructor
  · intro r hr
    unfold polarR at hr
    rw [List.mem_map] at hr
    obtain ⟨v, hv, rfl⟩ := hr
    have hvnn : 0 ≤ v := rRawList_nonneg _ _ _ v hv
    have hp : 0 < p95Of (rRawList fullA fullB (windowN fullA.length fullB.length sc asamp)) :=
      p95Of_pos _ (rRawList_nonneg _ _ _)
    constructor
    · exact div_nonneg (le_min hvnn (le_of_lt hp)) (le_of_lt hp)
    · rw [div_le_one hp]
      exact min_le_right _ _
  · unfold polarRevolutions
    rw [show ((windowN fullA.length fullB.length sc asamp : ℕ) : ℚ)
        = (((windowN fullA.length fullB.length sc asamp : ℕ) : ℤ) : ℚ) by push_cast; rfl]
    rw [Rat.floor_intCast_div_natCast]
    exact (Int.ofNat_tdiv _ _).symm

/-- Claim C8 (witness): instantiation at `A = [1,2]`, `B = [1,1]`,
sample cap 1000, periodicity 360. -/
theorem polar_r_bounds_and_revolutions_witness :
    (∀ r ∈ polarR [1, 2] [1, 1]
        (windowN ([1, 2] : List ℚ).length ([1, 1] : List ℚ).length 1000 false),
      0 ≤ r ∧ r ≤ 1) ∧
    polarRevolutions (windowN ([1, 2] : List ℚ).length ([1, 1] : List ℚ).length 1000 false) 360
      = ((windowN ([1, 2] : List ℚ).length ([1, 1] : List ℚ).length 1000 false / 360 : ℕ) : ℤ) :=
  polar_r_bounds_and_revolutions [1, 2] [1, 1] 1000 false 360 (by decide)

/-! ## Lemmas about the trajectory statistics -/

lemma listVar_nonneg (l : List ℝ) : 0 ≤ listVar l := by
  unfold listVar
  refine div_nonneg (List.sum_nonneg fun v hv => ?_) (Nat.cast_nonneg _)
  rw [List.mem_map] at hv
  obtain ⟨u, _, rfl⟩ := hv
  positivity

lemma listStd_nonneg (l : List ℝ) : 0 ≤ listStd l := Real.sqrt_nonneg _

lemma listStd_mul_self (l : List ℝ) : listStd l * listStd l = listVar l :=
  Real.mul_self_sqrt (listVar_nonneg l)

lemma listMean_map_mul (c : ℝ) (A : List ℝ) :
    listMean (A.map (fun v => c * v)) = c * listMean A := by
  unfold listMean
  rw [List.length_map]
  have hs : (A.map (fun v => c * v)).sum = c * A.sum := by
    simpa using List.sum_map_mul_left A id c
  rw [hs, mul_div_assoc]

lemma listVar_map_mul (c : ℝ) (A : List ℝ) :
    listVar (A.map (fun v => c * v)) = c ^ 2 * listVar A := by
  unfold listVar
  rw [List.length_map, listMean_map_mul, List.map_map]
  have h1 : ((fun v => (v - c * listMean A) ^ 2) ∘ fun v => c * v)
      = fun a => c ^ 2 * ((a - listMean A) ^ 2) := by
    funext a
    simp only [Function.comp_apply]
    ring
  rw [h1]
  have hs : (A.map fun a => c ^ 2 * ((a - listMean A) ^ 2)).sum
      = c ^ 2 * (A.map fun a => (a - listMean A) ^ 2).sum := by
    simpa using List.sum_map_mul_left A (fun a => (a - listMean A) ^ 2) (c ^ 2)
  rw [hs, mul_div_assoc]

lemma listStd_map_mul (c : ℝ) (A : List ℝ) :
    listStd (A.map (fun v => c * v)) = |c| * listStd A := by
  unfold listStd
  rw [listVar_map_mul, Real.sqrt_mul (sq_nonneg c), Real.sqrt_sq_eq_abs]

lemma trajCov_map_mul (c : ℝ) (A : List ℝ) :
    trajCov A (A.map (fun v => c * v)) = c * listVar A := by
  unfold trajCov
  rw [listMean_map_mul, List.zipWith_map_right, List.zipWith_same]
  have h1 : (fun a => (a - listMean A) * (c * a - c * listMean A))
      = fun a => c * ((a - listMean A) ^ 2) := by
    funext a
    ring
  rw [h1]
  have hs : (A.map fun a => c * ((a - listMean A) ^ 2)).sum
      = c * (A.map fun a => (a - listMean A) ^ 2).sum := by
    simpa using List.sum_map_mul_left A (fun a => (a - listMean A) ^ 2) c
  rw [hs, mul_div_assoc]
  rfl

/-- Claim C7 (counterexample): `B = [0,-1]` is `A = [0,1]` scaled by the
nonzero factor `-1`, and `A` is non-constant (variance `1/4`), yet the
lag-0 Pearson correlation of the trajectory stats is `-1`, not `1.0`. -/
theorem trajCorr_negative_scaling_not_one :
    ([0, -1] : List ℝ) = [0, 1].map (fun v => (-1) * v) ∧
    listVar [0, 1] = 1/4 ∧
    trajCorr [0, 1] [0, -1] = -1 ∧
    ((-1 : ℝ) ≠ 1) := by
  have hmA : listMean [0, 1] = 1/2 := by
    unfold listMean
    norm_num
  have hmB : listMean [0, -1] = -(1/2) := by
    unfold listMean
    norm_num
  have hvA : listVar [0, 1] = 1/4 := by
    unfold listVar
    rw [hmA]
    norm_num
  have hvB : listVar [0, -1] = 1/4 := by
    unfold listVar
    rw [hmB]
    norm_num
  have hq : ((1 : ℝ)/4) = (1/2)^2 := by norm_num
  have hsA : listStd [0, 1] = 1/2 := by
    unfold listStd
    rw [hvA, hq, Real.sqrt_sq (by norm_num)]
  have hsB : listStd [0, -1] = 1/2 := by
    unfold listStd
    rw [hvB, hq, Real.sqrt_sq (by norm_num)]
  have hcov : trajCov [0, 1] [0, -1] = -(1/4) := by
    unfold trajCov
    rw [hmA, hmB]
    norm_num [List.zipWith]
  refine ⟨by norm_num, hvA, ?_, by norm_num⟩
  unfold trajCorr
  rw [hsA, hsB, hcov, if_pos (by norm_num)]
  norm_num

/-- Claim C7 (amended): the lag-0 Pearson correlation of the trajectory
stats equals `1.0` when `B` is `A` scaled by a **positive** factor (and `A`
is non-constant), equals `-1.0` for a negative factor, and equals `0.0`
whenever either standard deviation is zero. -/
theorem trajCorr_scaling_and_degenerate (A : List ℝ) (c : ℝ) :
    (0 < c → 0 < listVar A → trajCorr A (A.map (fun v => c * v)) = 1) ∧
    (c < 0 → 0 < listVar A → trajCorr A (A.map (fun v => c * v)) = -1) ∧
    (∀ B : List ℝ, listStd A = 0 ∨ listStd B = 0 → trajCorr A B = 0) := by
  have key : c ≠ 0 → 0 < listVar A →
      trajCorr A (A.map (fun v => c * v)) = c / |c| := by
    intro hc hv
    unfold trajCorr
    rw [listStd_map_mul, trajCov_map_mul]
    have hprod : listStd A * (|c| * listStd A) = |c| * listVar A := by
      rw [← listStd_mul_self A]
      ring
    rw [hprod]
    have hpos : 0 < |c| * listVar A := mul_pos (abs_pos.mpr hc) hv
    rw [if_pos hpos]
    rw [div_eq_div_iff hpos.ne' (abs_pos.mpr hc).ne']
    ring
  refine ⟨?_, ?_, ?_⟩
  · intro hc hv
    rw [key (ne_of_gt hc) hv, abs_of_pos hc, div_self (ne_of_gt hc)]
  · intro hc hv
    rw [key (ne_of_lt hc) hv, abs_of_neg hc, div_neg, div_self (ne_of_lt hc)]
  · intro B hB
    unfold trajCorr
    have hnot : ¬ 0 < listStd A * listStd B := by
      rcases hB with h | h <;> rw [h] <;> simp
    rw [if_neg hnot]

/-- Variance facts for the concrete witness windows. -/
lemma listVar_01_pos : 0 < listVar ([0, 1] : List ℝ) := by
  have hmA : listMean [0, 1] = 1/2 := by
    unfold listMean
    norm_num
  unfold listVar
  rw [hmA]
  norm_num

/-- Standard deviation of a constant two-sample window is zero. -/
lemma listStd_33 : listStd ([3, 3] : List ℝ) = 0 := by
  have hm : listMean [3, 3] = 3 := by
    unfold listMean
    norm_num
  unfold listStd listVar
  rw [hm]
  norm_num

/-- Claim C7 (witness): instantiations of the scaling/degeneracy
characterization at concrete windows — positive scaling by 2 gives
correlation 1, scaling by -2 gives -1, and a constant channel gives 0. -/
theorem trajCorr_scaling_and_degenerate_witness :
    (0 < (2 : ℝ) → 0 < listVar [0, 1] →
      trajCorr [0, 1] ([0, 1].map (fun v => (2 : ℝ) * v)) = 1) ∧
    trajCorr [0, 1] ([0, 1].map (fun v => (2 : ℝ) * v)) = 1 ∧
    trajCorr [0, 1] ([0, 1].map (fun v => (-2 : ℝ) * v)) = -1 ∧
    trajCorr ([3, 3] : List ℝ) [0, 1] = 0 :=
  ⟨(trajCorr_scaling_and_degenerate [0, 1] 2).1,
   (trajCorr_scaling_and_degenerate [0, 1] 2).1 (by norm_num) listVar_01_pos,
   (trajCorr_scaling_and_degenerate [0, 1] (-2)).2.1 (by norm_num) listVar_01_pos,
   (trajCorr_scaling_and_degenerate [3, 3] 1).2.2 [0, 1] (Or.inl listStd_33)⟩

end SignalViewer
